import Mathlib

set_option maxHeartbeats 1000000

namespace Momi

/-!
Shallow embedding of the numerical core of the `momi` package
(`momi/util.py` and `momi/moran_model.py`).  Machine floats are modelled
by exact rationals (every constant appearing in the code — `1e-13`,
`1e-300`, `i*(n-i)/2`, … — is dyadic or decimal and hence exact), numpy
arrays by lists, and a raised Python exception by `none`.
-/

/-! ### Memoization layer (`util.py`, `memoize` and `memoize_instance`) -/

/-- State of the cache created by `memoize` in `util.py`: the dictionary
`cache` mapping positional-argument tuples to results, together with a
counter of how many times the wrapped function body has actually been
invoked (the call counter observable in tests). -/
structure MemoState (α β : Type) where
  cache : List (α × β)
  calls : ℕ

/-- The fresh cache `obj.cache = {}` installed by `memoize`. -/
def MemoState.empty {α β : Type} : MemoState α β := ⟨[], 0⟩

/-- Dictionary lookup, modelling `args in cache` / `cache[args]`.  Keys are
inserted at most once, so an association list is a faithful model of the
Python dict. -/
def memoFind {α β : Type} [DecidableEq α] : List (α × β) → α → Option β
  | [], _ => none
  | (k, v) :: rest, a => if k = a then some v else memoFind rest a

/-- One call of the wrapper produced by `memoize` in `util.py`:
`if args not in cache: cache[args] = obj(*args, **kwargs); return cache[args]`.
The wrapped function `f` receives the positional tuple `a` and the keyword
arguments `kw`; only `a` is used as the cache key. -/
def memoCall {α κ β : Type} [DecidableEq α] (f : α → κ → β)
    (s : MemoState α β) (a : α) (kw : κ) : β × MemoState α β :=
  match memoFind s.cache a with
  | some v => (v, s)
  | none => (f a kw, ⟨(a, f a kw) :: s.cache, s.calls + 1⟩)

/-- A run of positional-only calls of a `memoize`-wrapped function, in
order, collecting the returned values and the final cache state. -/
def memoRun {α β : Type} [DecidableEq α] (f : α → β)
    (s : MemoState α β) : List α → List β × MemoState α β
  | [] => ([], s)
  | a :: rest =>
    let r := memoCall (fun x _ => f x) s a ()
    let rs := memoRun f r.2 rest
    (r.1 :: rs.1, rs.2)

/-- One call of a method decorated with `memoize_instance` in `util.py`:
the cache lives on the instance (`obj.__cache`), so the store maps each
instance `i` to its own `MemoState`; the key combines the decorated method
and the arguments after `self` — with a single decorated method this is
just the argument `a`. -/
def instCall {ι α β : Type} [DecidableEq ι] [DecidableEq α] (f : ι → α → β)
    (st : ι → MemoState α β) (i : ι) (a : α) : β × (ι → MemoState α β) :=
  let r := memoCall (fun x (_ : Unit) => f i x) (st i) a ()
  (r.1, fun j => if j = i then r.2 else st j)

/-- A run of method calls `(instance, argument)` through
`memoize_instance`, in order. -/
def instRun {ι α β : Type} [DecidableEq ι] [DecidableEq α] (f : ι → α → β)
    (st : ι → MemoState α β) : List (ι × α) → List β × (ι → MemoState α β)
  | [] => ([], st)
  | p :: rest =>
    let r := instCall f st p.1 p.2
    let rs := instRun f r.2 rest
    (r.1 :: rs.1, rs.2)

/-! ### Rate-matrix builder (`moran_model.py`, `rate_matrix`) -/

/-- Length of `np.arange(x)` for a real (here rational) stop value:
`ceil(x)` values when `x > 0`, none otherwise. -/
def arangeLen (x : ℚ) : ℕ := if x ≤ 0 then 0 else (⌈x⌉).toNat

/-- Shallow embedding of `rate_matrix(n, sparse_format)` from
`moran_model.py` (the matrix content does not depend on the format):
`i = np.arange(n+1)`, `diag = i*(n-i)/2.`,
`scipy.sparse.diags([diag[:-1], -2*diag, diag[1:]], [1, 0, -1], (n+1, n+1))`.
The guards model `scipy.sparse.diags` input validation: the shape must be
a non-negative integer (a non-integer or negative dimension raises), the
offsets `1` and `-1` must fit inside the shape (out of bounds for a 0×0
matrix raises), and each supplied diagonal must have exactly the length
determined by the shape and its offset.  A raised exception is `none`;
otherwise the result is the dimension together with the entry function of
the built tridiagonal matrix. -/
def rate_matrix_q (n : ℚ) : Option (ℕ × (ℕ → ℕ → ℚ)) :=
  let len := arangeLen (n + 1)
  let iArr : List ℚ := (List.range len).map (fun k : ℕ => (k : ℚ))
  let diag := iArr.map (fun x => x * (n - x) / 2)
  let dsup := diag.dropLast
  let dmain := diag.map (fun x => -2 * x)
  let dsub := diag.drop 1
  let shape := n + 1
  if shape.den ≠ 1 then none
  else if shape.num < 0 then none
  else if shape.num - 1 < 0 then none
  else if dsup.length ≠ (shape.num - 1).toNat ∨ dmain.length ≠ shape.num.toNat
      ∨ dsub.length ≠ (shape.num - 1).toNat then none
  else some (shape.num.toNat, fun i j =>
    if j = i + 1 then dsup.getD i 0
    else if i = j then dmain.getD i 0
    else if i = j + 1 then dsub.getD j 0
    else 0)

/-- Dimension of the matrix built by `rate_matrix` for a natural `n`. -/
def rmSize (n : ℕ) : ℕ :=
  match rate_matrix_q (n : ℚ) with
  | some p => p.1
  | none => 0

/-- Entry `(i, j)` of the matrix built by `rate_matrix` for a natural `n`. -/
def rmEntry (n i j : ℕ) : ℚ :=
  match rate_matrix_q (n : ℚ) with
  | some p => p.2 i j
  | none => 0

/-- The sparse storage format tag accepted by `scipy.sparse.diags`. -/
inductive SparseFormat : Type
  | csr
  | csc
  | coo
  | lil
  | dia
deriving DecidableEq

/-- The body of the memoized `rate_matrix`, keyword argument included:
`kw = none` models a call without `sparse_format=` (so the default
`"csr"` applies), and the produced sparse matrix carries the storage
format it was built with. -/
def rate_matrix_memo (n : ℕ) (kw : Option SparseFormat) :
    SparseFormat × Option (ℕ × (ℕ → ℕ → ℚ)) :=
  (kw.getD SparseFormat.csr, rate_matrix_q (n : ℚ))

/-! ### Probability cleanup (`util.py`, `truncate0` and `check_probs_matrix`) -/

/-- The floor `1e-300` that `truncate0` applies to the maximum:
`maxes = np.maximum(np.amax(x, axis=axis), 1e-300)`. -/
def floorMax : ℚ := 1 / 10 ^ 300

/-- Statistics of one reduction scope of `truncate0` (the whole array for
`axis=None`, one column for `axis=0`, one row for `axis=1`): the floored
maximum `np.maximum(np.amax(·), 1e-300)` and the negative magnitude
`np.maximum(-np.amin(·), 0.0)`.  numpy raises on an empty reduction, so an
empty scope is `none`. -/
def scopeStats (l : List ℚ) : Option (ℚ × ℚ) :=
  match l.max?, l.min? with
  | some a, some b => some (max a floorMax, max (-b) 0)
  | _, _ => none

/-- The elementwise zeroing rule of `truncate0` with scope statistics
`(M, m)`: if `strict`, `x[x < tol * maxes] = 0`, otherwise
`x[x < 2 * mins] = 0`. -/
def truncEntry (strict : Bool) (tol M m e : ℚ) : ℚ :=
  if (if strict then e < tol * M else e < 2 * m) then 0 else e

/-- `truncate0(x, axis=None, strict, tol)`: global maximum and minimum,
the assertion `np.all(mins <= tol * maxes)` (its failure is `none`), then
the elementwise zeroing rule applied to the whole matrix. -/
def truncate0Global (x : List (List ℚ)) (strict : Bool) (tol : ℚ) :
    Option (List (List ℚ)) :=
  match scopeStats x.flatten with
  | some p =>
    if p.2 ≤ tol * p.1 then
      some (x.map (fun r => r.map (truncEntry strict tol p.1 p.2)))
    else none
  | none => none

/-- One row of `truncate0(x, axis=1, ...)`: row statistics, the assertion
for this row, and the zeroing rule against the row thresholds. -/
def truncRow (strict : Bool) (tol : ℚ) (r : List ℚ) : Option (List ℚ) :=
  match scopeStats r with
  | some p =>
    if p.2 ≤ tol * p.1 then some (r.map (truncEntry strict tol p.1 p.2))
    else none
  | none => none

/-- `truncate0(x, axis=1, strict, tol)`: per-row statistics and zeroing. -/
def truncate0Axis1 (x : List (List ℚ)) (strict : Bool) (tol : ℚ) :
    Option (List (List ℚ)) :=
  x.mapM (truncRow strict tol)

/-- Column `j` of a rectangular matrix. -/
def column (x : List (List ℚ)) (j : ℕ) : List ℚ :=
  x.map (fun r => r.getD j 0)

/-- `truncate0(x, axis=0, strict, tol)`: per-column statistics (numpy
reduces along axis 0, i.e. over the rows of each column), the assertion
`np.all(mins <= tol * maxes)` over all columns, then the zeroing rule with
each entry compared against the thresholds of its own column. -/
def truncate0Axis0 (x : List (List ℚ)) (strict : Bool) (tol : ℚ) :
    Option (List (List ℚ)) :=
  match (List.range (x.head?.getD []).length).mapM
      (fun j => scopeStats (column x j)) with
  | some stats =>
    if stats.all (fun p => decide (p.2 ≤ tol * p.1)) then
      some (x.map (fun r => (r.zip stats).map
        (fun q => truncEntry strict tol q.2.1 q.2.2 q.1)))
    else none
  | none => none

/-- `truncate0(x, axis, strict, tol)` on a 2-D array, the axis being
`None`, `0` or `1`. -/
def truncate0 (x : List (List ℚ)) (axis : Option (Fin 2)) (strict : Bool)
    (tol : ℚ) : Option (List (List ℚ)) :=
  match axis with
  | Option.none => truncate0Global x strict tol
  | Option.some a =>
    if a = 0 then truncate0Axis0 x strict tol else truncate0Axis1 x strict tol

/-- The test `np.allclose(rowsums, 1.0)` with numpy's default tolerances:
`|a - 1| <= atol + rtol * |1|`, `rtol = 1e-5`, `atol = 1e-8`. -/
def allcloseOne (l : List ℚ) : Bool :=
  l.all (fun a => |a - 1| ≤ 1 / 10 ^ 8 + 1 / 10 ^ 5)

/-- `check_probs_matrix(x)` from `util.py`: first `x = truncate0(x)` (with
the default `axis=None`, `strict=False`, `tol=1e-13`), then the assertion
`np.allclose(np.sum(x, axis=1), 1.0)` on the row sums of the truncated
array, then the row normalization `np.einsum('ij,i->ij', x, 1.0/rowsums)`.
Either failing assertion is `none`. -/
def check_probs_matrix (x : List (List ℚ)) : Option (List (List ℚ)) :=
  match truncate0 x Option.none false (1 / 10 ^ 13) with
  | some y =>
    if allcloseOne (y.map List.sum) then
      some (y.map (fun r => r.map (fun e => e * (List.sum r)⁻¹)))
    else none
  | none => none

/-! ### Stable special functions (`util.py`, `expm1d` and
`transformed_expi`) -/

/-- `expm1d(x)` from `util.py`, on the extended reals so that the explicit
branch `elif x == float('inf'): return float('inf')` is visible: exactly
`1.0` at `x = 0`, `+inf` at `x = +inf`, otherwise `np.expm1(x)/x`, i.e.
`(e^x - 1)/x` in exact arithmetic. -/
noncomputable def expm1d (x : EReal) : EReal :=
  if x = 0 then 1
  else if x = ⊤ then ⊤
  else (((Real.exp x.toReal - 1) / x.toReal : ℝ) : EReal)

/-- The truncated series branch `transformed_expi_series` of `util.py`:
`c_n, ret = 1., 1.`, then for `n = 1, …, 10`: `c_n = -c_n * x * n;
ret = ret + c_n`. -/
def transformed_expi_series (x : ℝ) : ℝ :=
  ((List.range' 1 10).foldl
    (fun p (n : ℕ) =>
      let c := -p.1 * x * (n : ℝ)
      (c, p.2 + c))
    (1, 1)).2

/-- The closed-form branch `transformed_expi_naive` of `util.py`:
`-scipy.special.expi(-1.0/x) * np.exp(1.0/x) / x`, with the external
exponential-integral special function `scipy.special.expi` kept abstract
as a parameter `F`. -/
noncomputable def transformed_expi_naive (F : ℝ → ℝ) (x : ℝ) : ℝ :=
  -F (-1 / x) * Real.exp (1 / x) / x

/-- The per-element branch split of `transformed_expi` in `util.py`:
`ser = abs(x) < 1/45`, series on `ser`, closed form on its complement. -/
noncomputable def transformed_expi_elem (F : ℝ → ℝ) (x : ℝ) : ℝ :=
  if |x| < 1 / 45 then transformed_expi_series x else transformed_expi_naive F x

/-- `transformed_expi(x)` from `util.py`, vectorized over an array: the
boolean-mask assembly `ret[ser], ret[nser] = series(x[ser]), naive(x[nser])`
applies the appropriate branch to each element in place, which is exactly
an elementwise map. -/
noncomputable def transformed_expi (F : ℝ → ℝ) (xs : List ℝ) : List ℝ :=
  xs.map (transformed_expi_elem F)

/-- The birth/death rate `i * (n - i) / 2` of the Moran model, in exact
arithmetic. -/
def moranRate (n k : ℕ) : ℚ :=
  (k : ℚ) * ((n : ℚ) - (k : ℚ)) / 2

/-- The diagonal array `diag = i * (n - i) / 2.` built by `rate_matrix`
for a natural argument: `np.arange(n+1)` mapped through the rate
formula. -/
def moranD (n : ℕ) : List ℚ :=
  ((List.range (n + 1)).map (fun k : ℕ => (k : ℚ))).map
    (fun x => x * ((n : ℚ) - x) / 2)

/-- A single probability row whose sum is far from 1 before `truncate0`
runs but equal to 1 afterwards: `[1, -1e-13]` followed by `10^8` copies of
`1.9e-13` (each strictly below the non-strict zeroing threshold
`2e-13`). -/
def c2Row : List ℚ :=
  1 :: -(1 / 10 ^ 13) :: List.replicate (10 ^ 8) (19 / 10 ^ 14)

/-!
## Theorems
-/

/-- Looking a key up in a cache that starts with that key. -/
theorem memoFind_cons_self {α β : Type} [DecidableEq α] (a : α) (v : β)
    (c : List (α × β)) : memoFind ((a, v) :: c) a = some v := by
  simp [memoFind]

/-- A cache hit returns the stored value and leaves the state unchanged. -/
theorem memoCall_hit {α κ β : Type} [DecidableEq α] (f : α → κ → β)
    (s : MemoState α β) (a : α) (kw : κ) (v : β)
    (h : memoFind s.cache a = some v) : memoCall f s a kw = (v, s) := by
  simp [memoCall, h]

/-- Repeated identical positional calls after a hit change nothing. -/
theorem memoRun_hit {α β : Type} [DecidableEq α] (f : α → β)
    (s : MemoState α β) (a : α) (n : ℕ)
    (h : memoFind s.cache a = some (f a)) :
    memoRun f s (List.replicate n a) = (List.replicate n (f a), s) := by
  induction n with
  | zero => simp [memoRun]
  | succ n ih => simp [List.replicate_succ, memoRun, memoCall_hit _ _ _ _ _ h, ih]

/-- A run of `n + 1` identical positional calls from a fresh cache: every
call returns `f a`, the cache holds the single entry `(a, f a)`, and the
wrapped function has been invoked exactly once. -/
theorem memoRun_replicate {α β : Type} [DecidableEq α] (f : α → β) (a : α)
    (n : ℕ) :
    memoRun f MemoState.empty (List.replicate (n + 1) a) =
      (List.replicate (n + 1) (f a), ⟨[(a, f a)], 1⟩) := by
  rw [List.replicate_succ]
  have h1 : memoCall (fun (x : α) (_ : Unit) => f x) MemoState.empty a () =
      (f a, ⟨[(a, f a)], 1⟩) := by
    simp [memoCall, MemoState.empty, memoFind]
  simp only [memoRun, h1]
  rw [memoRun_hit f ⟨[(a, f a)], 1⟩ a n (memoFind_cons_self a (f a) [])]
  simp [List.replicate_succ]

/-- An instance-method cache hit leaves the whole store unchanged. -/
theorem instRun_hit {ι α β : Type} [DecidableEq ι] [DecidableEq α]
    (f : ι → α → β) (st : ι → MemoState α β) (i : ι) (a : α) (n : ℕ)
    (h : memoFind (st i).cache a = some (f i a)) :
    instRun f st (List.replicate n (i, a)) = (List.replicate n (f i a), st) := by
  have hc : instCall f st i a = (f i a, st) := by
    have := memoCall_hit (fun (x : α) (_ : Unit) => f i x) (st i) a () (f i a) h
    simp only [instCall, this]
    refine Prod.ext rfl ?_
    funext j
    by_cases hj : j = i
    · subst hj
      simp
    · simp [hj]
  induction n with
  | zero => simp [instRun]
  | succ n ih => simp [List.replicate_succ, instRun, hc, ih]

/-- A run of `n + 1` identical method calls on one instance from a fresh
store: every call returns `f i a`, instance `i` ends with a one-entry
cache and one underlying invocation, and every other instance is
untouched. -/
theorem instRun_replicate {ι α β : Type} [DecidableEq ι] [DecidableEq α]
    (f : ι → α → β) (i : ι) (a : α) (n : ℕ) :
    instRun f (fun _ => MemoState.empty) (List.replicate (n + 1) (i, a)) =
      (List.replicate (n + 1) (f i a),
        fun j => if j = i then ⟨[(a, f i a)], 1⟩ else MemoState.empty) := by
  rw [List.replicate_succ]
  have h1 : instCall f (fun (_ : ι) => (MemoState.empty : MemoState α β)) i a =
      (f i a, fun j => if j = i then ⟨[(a, f i a)], 1⟩ else MemoState.empty) := by
    simp [instCall, memoCall, memoFind, MemoState.empty]
  simp only [instRun, h1]
  rw [instRun_hit f _ i a n (by simp [memoFind_cons_self])]
  simp [List.replicate_succ]

/-- C8: a `memoize`-wrapped pure function is computed exactly once per
distinct positional-argument tuple: across `n + 1` identical calls from a
fresh cache every call returns `f a`, the underlying function body runs
exactly once, no cache entry is ever evicted by a later call, and the
per-instance cache of `memoize_instance` gives the same compute-once
guarantee on each instance. -/
theorem memoize_computes_once {α β ι : Type} [DecidableEq α] [DecidableEq ι]
    (f : α → β) (g : ι → α → β) (a : α) (i : ι) (n : ℕ) :
    memoRun f MemoState.empty (List.replicate (n + 1) a) =
        (List.replicate (n + 1) (f a), ⟨[(a, f a)], 1⟩) ∧
    (∀ (s : MemoState α β) (b : α) (kw : Unit) (p : α × β),
        p ∈ s.cache → p ∈ (memoCall (fun x _ => f x) s b kw).2.cache) ∧
    (instRun g (fun _ => MemoState.empty) (List.replicate (n + 1) (i, a))).1 =
        List.replicate (n + 1) (g i a) ∧
    ((instRun g (fun _ => MemoState.empty) (List.replicate (n + 1) (i, a))).2 i).calls
        = 1 := by
  refine ⟨memoRun_replicate f a n, ?_, ?_, ?_⟩
  · intro s b kw p hp
    unfold memoCall
    cases hfound : memoFind s.cache b with
    | some v => simpa using hp
    | none => simpa using Or.inr hp
  · rw [instRun_replicate]
  · rw [instRun_replicate]
    simp

/-- C8 witness: a concrete cache entry survives a further call. -/
theorem memoize_computes_once_w :
    ((3, 4) : ℕ × ℕ) ∈
      (memoCall (fun (x : ℕ) (_ : Unit) => x + 1) ⟨[(3, 4)], 1⟩ 3 ()).2.cache :=
  (memoize_computes_once (fun x => x + 1) (fun (_ : ℕ) (x : ℕ) => x) 3 0 0).2.1
    ⟨[(3, 4)], 1⟩ 3 () (3, 4) (by simp)

/-- C10: the `memoize` cache key is the positional tuple only: a call
whose positionals hit the cache returns the stored value no matter what
keyword arguments it passes, two successive calls with identical
positionals and different keyword arguments both return the value computed
with the first call's keyword arguments, and in particular after
`rate_matrix(n)` has been cached a later `rate_matrix(n, sparse_format=f)`
returns the cached CSR-format matrix regardless of `f`. -/
theorem memoize_ignores_kwargs {α κ β : Type} [DecidableEq α]
    (f : α → κ → β) (a : α) (k₁ k₂ : κ) :
    (∀ (s : MemoState α β) (v : β), memoFind s.cache a = some v →
        memoCall f s a k₂ = (v, s)) ∧
    (memoCall f (memoCall f MemoState.empty a k₁).2 a k₂).1 = f a k₁ ∧
    (∀ (n : ℕ) (fmt : SparseFormat),
      (memoCall rate_matrix_memo
          (memoCall rate_matrix_memo MemoState.empty n Option.none).2 n
          (Option.some fmt)).1 =
        (SparseFormat.csr, rate_matrix_q (n : ℚ))) := by
  have key : ∀ {α' κ' β' : Type} [DecidableEq α'] (f' : α' → κ' → β') (a' : α')
      (k k' : κ'),
      (memoCall f' (memoCall f' MemoState.empty a' k).2 a' k').1 = f' a' k := by
    intro α' κ' β' _ f' a' k k'
    have h1 : memoCall f' MemoState.empty a' k =
        (f' a' k, ⟨[(a', f' a' k)], 1⟩) := by
      simp [memoCall, MemoState.empty, memoFind]
    rw [h1, memoCall_hit f' _ a' k' (f' a' k) (memoFind_cons_self a' _ [])]
  refine ⟨fun s v h => memoCall_hit f s a k₂ v h, key f a k₁ k₂, ?_⟩
  intro n fmt
  have := key rate_matrix_memo n Option.none (Option.some fmt)
  rw [this]
  rfl

/-- C10 witness: a concrete cache hit ignores the keyword argument. -/
theorem memoize_ignores_kwargs_w :
    memoCall (fun (x : ℕ) (b : Bool) => if b then x else 0)
        ⟨[(2, 7)], 1⟩ 2 false = (7, ⟨[(2, 7)], 1⟩) :=
  (memoize_ignores_kwargs (fun (x : ℕ) (b : Bool) => if b then x else 0)
    2 true false).1 ⟨[(2, 7)], 1⟩ 7 (by simp [memoFind])

/-- The `np.arange(n + 1)` of `rate_matrix` has `n + 1` entries for a
natural `n`. -/
theorem arangeLen_nat (n : ℕ) : arangeLen ((n : ℚ) + 1) = n + 1 := by
  have hc : (n : ℚ) + 1 = ((n + 1 : ℕ) : ℚ) := by push_cast; ring
  rw [hc]
  unfold arangeLen
  rw [if_neg (not_le.mpr (by exact_mod_cast Nat.succ_pos n))]
  simp

/-- The denominator of the shape value `n + 1` passed to
`scipy.sparse.diags` is 1 for a natural `n`. -/
theorem shape_den_nat (n : ℕ) : ((n : ℚ) + 1).den = 1 := by
  have hc : (n : ℚ) + 1 = ((n + 1 : ℕ) : ℚ) := by push_cast; ring
  rw [hc]
  exact Rat.den_natCast _

/-- The numerator of the shape value `n + 1` for a natural `n`. -/
theorem shape_num_nat (n : ℕ) : ((n : ℚ) + 1).num = (n : ℤ) + 1 := by
  have hc : (n : ℚ) + 1 = ((n + 1 : ℕ) : ℚ) := by push_cast; ring
  rw [hc, Rat.num_natCast]
  push_cast
  ring

/-- The composed maps building the diagonal array are `moranD`. -/
theorem moranD_eq (n : ℕ) :
    ((List.range (n + 1)).map (fun k : ℕ => (k : ℚ))).map
        (fun x => x * ((n : ℚ) - x) / 2) = moranD n := rfl

/-- Optional indexing into the diagonal array. -/
theorem moranD_getElem? (n k : ℕ) :
    (moranD n)[k]? = if k < n + 1 then some (moranRate n k) else none := by
  unfold moranD
  rw [List.getElem?_map, List.getElem?_map]
  by_cases h : k < n + 1
  · rw [List.getElem?_range h, if_pos h]
    rfl
  · rw [List.getElem?_eq_none (by simp only [List.length_range]; omega), if_neg h]
    rfl

/-- Length of the diagonal array. -/
theorem moranD_length (n : ℕ) : (moranD n).length = n + 1 := by
  simp [moranD]

/-- Indexing into the super-diagonal `diag[:-1]`. -/
theorem moranD_dropLast_getD (n k : ℕ) :
    ((moranD n).dropLast).getD k 0 = if k < n then moranRate n k else 0 := by
  rw [List.getD_eq_getElem?_getD, List.getElem?_dropLast, moranD_length]
  by_cases h : k < n
  · rw [if_pos (show k < n + 1 - 1 by omega), moranD_getElem?,
      if_pos (show k < n + 1 by omega), if_pos h]
    rfl
  · rw [if_neg (show ¬k < n + 1 - 1 by omega), if_neg h]
    rfl

/-- Indexing into the main diagonal `-2 * diag`. -/
theorem moranD_map_getD (n k : ℕ) :
    ((moranD n).map (fun x => -2 * x)).getD k 0 =
      if k < n + 1 then -2 * moranRate n k else 0 := by
  rw [List.getD_eq_getElem?_getD, List.getElem?_map, moranD_getElem?]
  by_cases h : k < n + 1
  · rw [if_pos h, if_pos h]
    rfl
  · rw [if_neg h, if_neg h]
    rfl

/-- Indexing into the sub-diagonal `diag[1:]`. -/
theorem moranD_drop_getD (n k : ℕ) :
    ((moranD n).drop 1).getD k 0 =
      if k + 1 < n + 1 then moranRate n (k + 1) else 0 := by
  rw [List.getD_eq_getElem?_getD, List.getElem?_drop]
  rw [show 1 + k = k + 1 by omega, moranD_getElem?]
  by_cases h : k + 1 < n + 1
  · rw [if_pos h, if_pos h]
    rfl
  · rw [if_neg h, if_neg h]
    rfl

/-- For a natural argument all `scipy.sparse.diags` validation passes and
`rate_matrix` builds the `(n+1) × (n+1)` tridiagonal matrix from the three
diagonals. -/
theorem rate_matrix_q_nat (n : ℕ) :
    rate_matrix_q (n : ℚ) =
      some (n + 1, fun i j =>
        if j = i + 1 then ((moranD n).dropLast).getD i 0
        else if i = j then ((moranD n).map (fun x => -2 * x)).getD i 0
        else if i = j + 1 then ((moranD n).drop 1).getD j 0
        else 0) := by
  have h1 : ((n : ℤ) + 1 - 1).toNat = n := by omega
  have h2 : ((n : ℤ) + 1).toNat = n + 1 := by omega
  simp only [rate_matrix_q, arangeLen_nat, shape_den_nat, shape_num_nat,
    moranD_eq, h1, h2]
  rw [if_neg (show ¬(1 : ℕ) ≠ 1 from fun h => h rfl)]
  rw [if_neg (show ¬((n : ℤ) + 1 < 0) by omega)]
  rw [if_neg (show ¬((n : ℤ) + 1 - 1 < 0) by omega)]
  have hlen : ¬((moranD n).dropLast.length ≠ n ∨
      ((moranD n).map (fun x => -2 * x)).length ≠ n + 1 ∨
      ((moranD n).drop 1).length ≠ n) := by
    simp only [List.length_dropLast, List.length_map, moranD_length,
      List.length_drop]
    omega
  rw [if_neg hlen]

/-- Pointwise evaluation of the built matrix. -/
theorem rmEntry_eval (n i j : ℕ) :
    rmEntry n i j =
      if j = i + 1 then (if i < n then moranRate n i else 0)
      else if i = j then (if i < n + 1 then -2 * moranRate n i else 0)
      else if i = j + 1 then (if j + 1 < n + 1 then moranRate n (j + 1) else 0)
      else 0 := by
  unfold rmEntry
  rw [rate_matrix_q_nat]
  simp only [moranD_dropLast_getD, moranD_map_getD, moranD_drop_getD]

/-- The built matrix has dimension `n + 1`. -/
theorem rmSize_nat (n : ℕ) : rmSize n = n + 1 := by
  unfold rmSize
  rw [rate_matrix_q_nat]

/-- Row `0` of the rate matrix is identically zero. -/
theorem rmEntry_row_zero (n j : ℕ) : rmEntry n 0 j = 0 := by
  rw [rmEntry_eval]
  by_cases hA : j = 0 + 1
  · rw [if_pos hA]
    split_ifs
    · simp [moranRate]
    · rfl
  · rw [if_neg hA]
    by_cases hB : 0 = j
    · rw [if_pos hB, if_pos (by omega)]
      simp [moranRate]
    · rw [if_neg hB, if_neg (by omega)]

/-- Row `n` of the rate matrix is identically zero. -/
theorem rmEntry_row_n (n j : ℕ) : rmEntry n n j = 0 := by
  rw [rmEntry_eval]
  by_cases hA : j = n + 1
  · rw [if_pos hA, if_neg (by omega)]
  · rw [if_neg hA]
    by_cases hB : n = j
    · rw [if_pos hB, if_pos (by omega)]
      simp [moranRate]
    · rw [if_neg hB]
      by_cases hC : n = j + 1
      · rw [if_pos hC, if_pos (by omega), ← hC]
        simp [moranRate]
      · rw [if_neg hC]

/-- C1: for every natural `n`, `rate_matrix(n)` succeeds and builds an
`(n+1) × (n+1)` tridiagonal matrix with super-diagonal entries
`(i, i+1) = i(n-i)/2`, sub-diagonal entries `(i, i-1) = i(n-i)/2`,
diagonal entries `(i, i) = -(i(n-i))`, zeros everywhere else, zero row
sums, all-zero boundary rows `0` and `n`, and in particular for `n = 2`
row 1 equals `[1/2, -1, 1/2]` with rows 0 and 2 all-zero. -/
theorem rate_matrix_C1 (n : ℕ) :
    (rate_matrix_q (n : ℚ)).isSome = true ∧
    rmSize n = n + 1 ∧
    (∀ i, i < n → rmEntry n i (i + 1) = (i : ℚ) * ((n : ℚ) - i) / 2) ∧
    (∀ i, 1 ≤ i → i ≤ n → rmEntry n i (i - 1) = (i : ℚ) * ((n : ℚ) - i) / 2) ∧
    (∀ i, i ≤ n → rmEntry n i i = -((i : ℚ) * ((n : ℚ) - i))) ∧
    (∀ i j, i ≤ n → j ≤ n → j ≠ i + 1 → i ≠ j + 1 → i ≠ j → rmEntry n i j = 0) ∧
    (∀ i, i ≤ n → ∑ j ∈ Finset.range (n + 1), rmEntry n i j = 0) ∧
    (∀ j, rmEntry n 0 j = 0 ∧ rmEntry n n j = 0) ∧
    (rmEntry 2 1 0 = 1 / 2 ∧ rmEntry 2 1 1 = -1 ∧ rmEntry 2 1 2 = 1 / 2) := by
  refine ⟨by rw [rate_matrix_q_nat]; rfl, rmSize_nat n, ?_, ?_, ?_, ?_, ?_,
    fun j => ⟨rmEntry_row_zero n j, rmEntry_row_n n j⟩, ?_, ?_, ?_⟩
  · intro i hi
    rw [rmEntry_eval, if_pos rfl, if_pos hi]
    rfl
  · intro i h1 h2
    have e1 : i - 1 + 1 = i := by omega
    rw [rmEntry_eval, if_neg (by omega), if_neg (by omega), if_pos (by omega),
      if_pos (by omega), e1]
    rfl
  · intro i hi
    rw [rmEntry_eval, if_neg (by omega), if_pos rfl, if_pos (by omega)]
    unfold moranRate
    ring
  · intro i j hi hj hA hB hC
    rw [rmEntry_eval, if_neg hA, if_neg hC, if_neg hB]
  · intro i hi
    by_cases h0 : i = 0
    · subst h0
      exact Finset.sum_eq_zero (fun j _ => rmEntry_row_zero n j)
    · by_cases hn : i = n
      · subst hn
        exact Finset.sum_eq_zero (fun j _ => rmEntry_row_n i j)
      · have hi1 : 1 ≤ i := by omega
        have hilt : i < n := by omega
        have hsub : ({i - 1, i, i + 1} : Finset ℕ) ⊆ Finset.range (n + 1) := by
          intro j hj
          simp only [Finset.mem_insert, Finset.mem_singleton] at hj
          rcases hj with h | h | h <;> (subst h; exact Finset.mem_range.mpr (by omega))
        rw [← Finset.sum_subset hsub ?_]
        · have d1 : (i - 1) ∉ ({i, i + 1} : Finset ℕ) := by
            simp only [Finset.mem_insert, Finset.mem_singleton]
            omega
          have d2 : i ∉ ({i + 1} : Finset ℕ) := by
            simp only [Finset.mem_singleton]
            omega
          rw [Finset.sum_insert d1, Finset.sum_insert d2, Finset.sum_singleton]
          have e1 : rmEntry n i (i - 1) = moranRate n i := by
            rw [rmEntry_eval, if_neg (by omega), if_neg (by omega),
              if_pos (by omega), if_pos (by omega)]
            congr 1
            omega
          have e2 : rmEntry n i i = -2 * moranRate n i := by
            rw [rmEntry_eval, if_neg (by omega), if_pos rfl, if_pos (by omega)]
          have e3 : rmEntry n i (i + 1) = moranRate n i := by
            rw [rmEntry_eval, if_pos rfl, if_pos hilt]
          rw [e1, e2, e3]
          ring
        · intro j hjt hjs
          simp only [Finset.mem_insert, Finset.mem_singleton, not_or] at hjs
          rw [rmEntry_eval, if_neg (by omega), if_neg (by omega), if_neg (by omega)]
  · rw [rmEntry_eval]
    norm_num [moranRate]
  · rw [rmEntry_eval]
    norm_num [moranRate]
  · rw [rmEntry_eval]
    norm_num [moranRate]

/-- C1 witness: the super-diagonal formula at `n = 2`, `i = 1`. -/
theorem rate_matrix_C1_w :
    rmEntry 2 1 (1 + 1) = (1 : ℚ) * ((2 : ℚ) - 1) / 2 :=
  (rate_matrix_C1 2).2.2.1 1 (by norm_num)

/-- C9: `rate_matrix(n)` raises (inside `scipy.sparse.diags` input
validation) for every negative or non-integer `n`, rather than returning
a matrix. -/
theorem rate_matrix_invalid_C9 (n : ℚ) (h : n < 0 ∨ n.den ≠ 1) :
    rate_matrix_q n = none := by
  simp only [rate_matrix_q]
  split_ifs with g1 g2 g3 g4
  · rfl
  · rfl
  · rfl
  · rfl
  · exfalso
    have hden : (n + 1).den = 1 := by
      by_contra hd
      exact g1 hd
    have hval : (((n + 1).num : ℤ) : ℚ) = n + 1 := (Rat.den_eq_one_iff _).1 hden
    rcases h with hneg | hdq
    · have hge : 1 ≤ (n + 1).num := by omega
      have : (1 : ℚ) ≤ ((n + 1).num : ℚ) := by exact_mod_cast hge
      rw [hval] at this
      linarith
    · apply hdq
      have : n = (((n + 1).num - 1 : ℤ) : ℚ) := by
        push_cast
        rw [hval]
        ring
      rw [this]
      exact Rat.den_intCast _

/-- C9 witness: `rate_matrix(-1)` raises. -/
theorem rate_matrix_invalid_C9_w : rate_matrix_q (-1) = none :=
  rate_matrix_invalid_C9 (-1) (Or.inl (by norm_num))

/-- A nonempty scope always has statistics, and they are the floored
maximum and the negative magnitude of the minimum. -/
theorem scopeStats_of_ne_nil (l : List ℚ) (h : l ≠ []) :
    scopeStats l =
      some (max (l.max?.getD 0) floorMax, max (-(l.min?.getD 0)) 0) := by
  obtain ⟨a, ha⟩ :=
    Option.ne_none_iff_exists'.mp (fun hn => h (List.max?_eq_none_iff.mp hn))
  obtain ⟨b, hb⟩ :=
    Option.ne_none_iff_exists'.mp (fun hn => h (List.min?_eq_none_iff.mp hn))
  unfold scopeStats
  rw [ha, hb]
  simp

/-- `mapM` over `Option` fails exactly when some element fails. -/
theorem mapM_option_eq_none_iff {γ δ : Type} (f : γ → Option δ) (l : List γ) :
    l.mapM f = none ↔ ∃ a ∈ l, f a = none := by
  induction l with
  | nil =>
    rw [List.mapM_nil]
    exact iff_of_false (fun h => Option.noConfusion h) (by simp)
  | cons a t ih =>
    rw [List.mapM_cons]
    cases hf : f a with
    | none =>
      exact iff_of_true rfl ⟨a, List.mem_cons_self a t, hf⟩
    | some v =>
      cases ht : t.mapM f with
      | none =>
        exact iff_of_true rfl
          (let ⟨b, hb, hfb⟩ := ih.mp ht
           ⟨b, List.mem_cons_of_mem a hb, hfb⟩)
      | some vs =>
        refine iff_of_false (fun h => Option.noConfusion h) ?_
        rintro ⟨b, hb, hfb⟩
        rcases List.mem_cons.mp hb with rfl | hbt
        · rw [hf] at hfb
          exact Option.noConfusion hfb
        · rw [ih.mpr ⟨b, hbt, hfb⟩] at ht
          exact Option.noConfusion ht

/-- `mapM` over `Option` where every element succeeds is a plain map. -/
theorem mapM_option_eq_map {γ δ : Type} (f : γ → Option δ) (g : γ → δ)
    (l : List γ) (h : ∀ a ∈ l, f a = some (g a)) :
    l.mapM f = some (l.map g) := by
  induction l with
  | nil => rfl
  | cons a t ih =>
    rw [List.mapM_cons, h a (List.mem_cons_self a t),
      ih (fun b hb => h b (List.mem_cons_of_mem a hb))]
    rfl

/-- Mapping a function that fixes every member is the identity. -/
theorem map_eq_self_of_mem {γ : Type} (l : List γ) (f : γ → γ)
    (h : ∀ a ∈ l, f a = a) : l.map f = l := by
  induction l with
  | nil => rfl
  | cons a t ih =>
    rw [List.map_cons, h a (List.mem_cons_self a t),
      ih (fun b hb => h b (List.mem_cons_of_mem a hb))]

/-- Zipping with constant-irrelevant second components and projecting the
first is the identity. -/
theorem zip_map_eq_self {γ δ : Type} (r : List γ) (s : List δ)
    (f : γ → δ → γ) (hlen : r.length ≤ s.length)
    (h : ∀ a ∈ r, ∀ b ∈ s, f a b = a) :
    (r.zip s).map (fun q => f q.1 q.2) = r := by
  induction r generalizing s with
  | nil => simp
  | cons a t ih =>
    cases s with
    | nil => simp at hlen
    | cons b u =>
      simp only [List.zip_cons_cons, List.map_cons]
      rw [h a (List.mem_cons_self a t) b (List.mem_cons_self b u),
        ih u (by simpa using hlen)
          (fun a' ha' b' hb' =>
            h a' (List.mem_cons_of_mem a ha') b' (List.mem_cons_of_mem b hb'))]

/-- In the non-strict mode with zero negative magnitude, every positive
entry is kept. -/
theorem truncEntry_pos (tol M e : ℚ) (he : 0 < e) :
    truncEntry false tol M 0 e = e := by
  show (if e < 2 * (0 : ℚ) then (0 : ℚ) else e) = e
  rw [if_neg (by linarith)]

/-- On an all-positive scope the negative magnitude is zero and the
floored maximum is positive. -/
theorem scope_pos_stats (l : List ℚ) (hne : l ≠ []) (hpos : ∀ e ∈ l, 0 < e) :
    max (-(l.min?.getD 0)) 0 = 0 ∧ 0 < max (l.max?.getD 0) floorMax := by
  obtain ⟨b, hb⟩ :=
    Option.ne_none_iff_exists'.mp (fun hn => hne (List.min?_eq_none_iff.mp hn))
  have hbpos := hpos b (List.min?_mem min_choice hb)
  constructor
  · rw [hb]
    simp only [Option.getD_some]
    exact max_eq_right (by linarith)
  · exact lt_max_of_lt_right (by norm_num [floorMax])

/-- The assertion of `truncate0` with `axis=None` fails exactly when the
global negative magnitude exceeds `tol` times the global floored
maximum. -/
theorem truncate0_global_none_iff (x : List (List ℚ)) (strict : Bool)
    (tol : ℚ) (h : x.flatten ≠ []) :
    truncate0 x Option.none strict tol = none ↔
      tol * max (x.flatten.max?.getD 0) floorMax <
        max (-(x.flatten.min?.getD 0)) 0 := by
  show truncate0Global x strict tol = none ↔ _
  unfold truncate0Global
  rw [scopeStats_of_ne_nil _ h]
  dsimp only
  by_cases hc : max (-(x.flatten.min?.getD 0)) 0 ≤
      tol * max (x.flatten.max?.getD 0) floorMax
  · rw [if_pos hc]
    exact iff_of_false (by simp) (not_lt.mpr hc)
  · rw [if_neg hc]
    exact iff_of_true rfl (not_le.mp hc)

/-- The per-row assertion of `truncate0` with `axis=1`. -/
theorem truncRow_none_iff (strict : Bool) (tol : ℚ) (r : List ℚ)
    (h : r ≠ []) :
    truncRow strict tol r = none ↔
      tol * max (r.max?.getD 0) floorMax < max (-(r.min?.getD 0)) 0 := by
  unfold truncRow
  rw [scopeStats_of_ne_nil _ h]
  dsimp only
  by_cases hc : max (-(r.min?.getD 0)) 0 ≤ tol * max (r.max?.getD 0) floorMax
  · rw [if_pos hc]
    exact iff_of_false (by simp) (not_lt.mpr hc)
  · rw [if_neg hc]
    exact iff_of_true rfl (not_le.mp hc)

/-- The assertion of `truncate0` with `axis=1` fails exactly when some row
violates the tolerance. -/
theorem truncate0_axis1_none_iff (x : List (List ℚ)) (strict : Bool)
    (tol : ℚ) (h : ∀ r ∈ x, r ≠ []) :
    truncate0 x (Option.some 1) strict tol = none ↔
      ∃ r ∈ x, tol * max (r.max?.getD 0) floorMax <
        max (-(r.min?.getD 0)) 0 := by
  show truncate0Axis1 x strict tol = none ↔ _
  unfold truncate0Axis1
  rw [mapM_option_eq_none_iff]
  constructor
  · rintro ⟨r, hr, hnone⟩
    exact ⟨r, hr, (truncRow_none_iff strict tol r (h r hr)).mp hnone⟩
  · rintro ⟨r, hr, hlt⟩
    exact ⟨r, hr, (truncRow_none_iff strict tol r (h r hr)).mpr hlt⟩

/-- The assertion of `truncate0` with `axis=0` fails exactly when some
column violates the tolerance. -/
theorem truncate0_axis0_none_iff (x : List (List ℚ)) (strict : Bool)
    (tol : ℚ) (hx : x ≠ []) :
    truncate0 x (Option.some 0) strict tol = none ↔
      ∃ j < (x.head?.getD []).length,
        tol * max ((column x j).max?.getD 0) floorMax <
          max (-((column x j).min?.getD 0)) 0 := by
  show truncate0Axis0 x strict tol = none ↔ _
  unfold truncate0Axis0
  have hg : ∀ j ∈ List.range (x.head?.getD []).length,
      scopeStats (column x j) =
        some (max ((column x j).max?.getD 0) floorMax,
          max (-((column x j).min?.getD 0)) 0) := by
    intro j _
    exact scopeStats_of_ne_nil _ (fun hnil => hx (List.map_eq_nil_iff.mp hnil))
  rw [mapM_option_eq_map _ _ _ hg]
  dsimp only
  by_cases hall : ((List.range (x.head?.getD []).length).map fun j =>
      (max ((column x j).max?.getD 0) floorMax,
        max (-((column x j).min?.getD 0)) 0)).all
      (fun p => decide (p.2 ≤ tol * p.1)) = true
  · rw [if_pos hall]
    refine iff_of_false (by simp) ?_
    rintro ⟨j, hj, hlt⟩
    have hmem := List.all_eq_true.mp hall _
      (List.mem_map.mpr ⟨j, List.mem_range.mpr hj, rfl⟩)
    rw [decide_eq_true_iff] at hmem
    exact absurd hmem (not_le.mpr hlt)
  · rw [if_neg hall]
    refine iff_of_true rfl ?_
    obtain ⟨p, hpmem, hp⟩ :=
      List.all_eq_false.mp (Bool.eq_false_iff.mpr hall)
    obtain ⟨j, hj, rfl⟩ := List.mem_map.mp hpmem
    rw [decide_eq_true_iff] at hp
    exact ⟨j, List.mem_range.mp hj, not_le.mp hp⟩

/-- C3 counterexample: on the 1×1 array `[[-1e-315]]` with `tol = 1e-13`
the magnitude of the most negative entry (`1e-315`) exceeds `tol` times
the maximum entry (`-1e-315`, so the product is negative), yet `truncate0`
does not raise — it silently zeroes the array — because the code floors
the maximum at `1e-300` before comparing. -/
theorem truncate0_raise_C3_cex :
    (1 / 10 ^ 13 : ℚ) *
        (([[-(1 / 10 ^ 315)]] : List (List ℚ)).flatten.max?.getD 0) <
      max (-(([[-(1 / 10 ^ 315)]] : List (List ℚ)).flatten.min?.getD 0)) 0 ∧
    truncate0 [[-(1 / 10 ^ 315)]] Option.none false (1 / 10 ^ 13) =
      some [[0]] := by
  constructor
  · norm_num [List.max?_cons', List.min?_cons', max_def]
  · show truncate0Global [[-(1 / 10 ^ 315)]] false (1 / 10 ^ 13) = some [[0]]
    unfold truncate0Global
    rw [scopeStats_of_ne_nil _ (by simp)]
    norm_num [List.max?_cons', List.min?_cons', max_def, floorMax, truncEntry]

/-- C3 (amended): `truncate0(x, axis, strict, tol)` raises if and only if,
along the given axis (or globally when the axis is `None`), the negative
magnitude `max(-amin, 0)` exceeds `tol` times the floored maximum
`max(amax, 1e-300)`; in particular an entry at `-0.5` with maximum `1.0`
and `tol = 1e-13` raises. -/
theorem truncate0_raise_C3 (x : List (List ℚ)) (strict : Bool) (tol : ℚ) :
    (x.flatten ≠ [] →
      (truncate0 x Option.none strict tol = none ↔
        tol * max (x.flatten.max?.getD 0) floorMax <
          max (-(x.flatten.min?.getD 0)) 0)) ∧
    ((∀ r ∈ x, r ≠ []) →
      (truncate0 x (Option.some 1) strict tol = none ↔
        ∃ r ∈ x, tol * max (r.max?.getD 0) floorMax <
          max (-(r.min?.getD 0)) 0)) ∧
    (x ≠ [] →
      (truncate0 x (Option.some 0) strict tol = none ↔
        ∃ j < (x.head?.getD []).length,
          tol * max ((column x j).max?.getD 0) floorMax <
            max (-((column x j).min?.getD 0)) 0)) ∧
    truncate0 [[1, -(1 / 2)]] Option.none false (1 / 10 ^ 13) = none :=
  ⟨truncate0_global_none_iff x strict tol,
   truncate0_axis1_none_iff x strict tol,
   truncate0_axis0_none_iff x strict tol,
   (truncate0_global_none_iff [[1, -(1 / 2)]] false (1 / 10 ^ 13)
       (by simp)).mpr
     (by norm_num [List.max?_cons', List.min?_cons', max_def, floorMax])⟩

/-- C3 witness: the global characterization applied to `[[1, -1/2]]`. -/
theorem truncate0_raise_C3_w :
    truncate0 [[(1 : ℚ), -(1 / 2)]] Option.none false (1 / 10 ^ 13) = none :=
  ((truncate0_raise_C3 [[(1 : ℚ), -(1 / 2)]] false (1 / 10 ^ 13)).1
    (by simp)).mpr
    (by norm_num [List.max?_cons', List.min?_cons', max_def, floorMax])

/-- C4 counterexample: with the default `tol = 1e-13` but `strict = True`,
`truncate0` zeroes the strictly positive entry `1e-20` of `[[1, 1e-20]]`
and the sum of the result is strictly below the sum of the input. -/
theorem truncate0_sum_C4_cex :
    truncate0 [[1, 1 / 10 ^ 20]] Option.none true (1 / 10 ^ 13) =
      some [[1, 0]] ∧
    ([[(1 : ℚ), 0]] : List (List ℚ)).flatten.sum <
      ([[(1 : ℚ), 1 / 10 ^ 20]] : List (List ℚ)).flatten.sum := by
  constructor
  · show truncate0Global [[1, 1 / 10 ^ 20]] true (1 / 10 ^ 13) = some [[1, 0]]
    unfold truncate0Global
    rw [scopeStats_of_ne_nil _ (by simp)]
    norm_num [List.max?_cons', List.min?_cons', max_def, floorMax, truncEntry]
  · norm_num

/-- C4 (amended): for a strictly positive rectangular nonempty input,
`strict = False` and any `tol ≥ 0`, `truncate0` is the identity (so the
sum of the entries is preserved), along every axis. -/
theorem truncate0_pos_identity_C4 (x : List (List ℚ)) (tol : ℚ)
    (axis : Option (Fin 2)) (htol : 0 ≤ tol) (hx : x ≠ [])
    (hrows : ∀ r ∈ x, r ≠ []) (hpos : ∀ r ∈ x, ∀ e ∈ r, 0 < e)
    (hrect : ∀ r ∈ x, r.length = (x.head?.getD []).length) :
    truncate0 x axis false tol = some x := by
  have hrowid : ∀ r ∈ x, ∀ (M : ℚ),
      r.map (truncEntry false tol M 0) = r := by
    intro r hr M
    exact map_eq_self_of_mem r _ (fun e he => truncEntry_pos tol M e (hpos r hr e he))
  rcases axis with _ | a
  · -- axis = None
    have hfne : x.flatten ≠ [] := by
      rw [Ne, List.flatten_eq_nil_iff]
      push_neg
      obtain ⟨r, hr⟩ := List.exists_mem_of_ne_nil x hx
      exact ⟨r, hr, hrows r hr⟩
    have hflatpos : ∀ e ∈ x.flatten, 0 < e := by
      intro e he
      obtain ⟨r, hrx, her⟩ := List.mem_flatten.mp he
      exact hpos r hrx e her
    obtain ⟨hm0, hMpos⟩ := scope_pos_stats x.flatten hfne hflatpos
    show truncate0Global x false tol = some x
    unfold truncate0Global
    rw [scopeStats_of_ne_nil _ hfne, hm0]
    dsimp only
    rw [if_pos (mul_nonneg htol hMpos.le)]
    rw [map_eq_self_of_mem x _ (fun r hr => hrowid r hr _)]
  · by_cases ha : a = 0
    · -- axis = 0
      subst ha
      show truncate0Axis0 x false tol = some x
      unfold truncate0Axis0
      have hcolne : ∀ j : ℕ, column x j ≠ [] :=
        fun j hnil => hx (List.map_eq_nil_iff.mp hnil)
      have hcolpos : ∀ j < (x.head?.getD []).length, ∀ e ∈ column x j, 0 < e := by
        intro j hj e he
        obtain ⟨r, hrx, hre⟩ := List.mem_map.mp he
        have hlen : j < r.length := by
          rw [hrect r hrx]
          exact hj
        rw [← hre, List.getD_eq_getElem?_getD, List.getElem?_eq_getElem hlen]
        exact hpos r hrx _ (List.getElem_mem hlen)
      have hg : ∀ j ∈ List.range (x.head?.getD []).length,
          scopeStats (column x j) =
            some (max ((column x j).max?.getD 0) floorMax, 0) := by
        intro j hj
        rw [scopeStats_of_ne_nil _ (hcolne j),
          (scope_pos_stats _ (hcolne j)
            (hcolpos j (List.mem_range.mp hj))).1]
      rw [mapM_option_eq_map _ _ _ hg]
      dsimp only
      rw [if_pos ?hall]
      case hall =>
        rw [List.all_eq_true]
        intro p hp
        obtain ⟨j, hj, rfl⟩ := List.mem_map.mp hp
        rw [decide_eq_true_iff]
        have := (scope_pos_stats _ (hcolne j)
          (hcolpos j (List.mem_range.mp hj))).2
        exact mul_nonneg htol this.le
      refine congrArg some (map_eq_self_of_mem x _ ?_)
      intro r hr
      refine zip_map_eq_self r _
        (fun (a : ℚ) (b : ℚ × ℚ) => truncEntry false tol b.1 b.2 a) ?_ ?_
      · rw [List.length_map, List.length_range, hrect r hr]
      · intro a' ha' b' hb'
        obtain ⟨j, hj, rfl⟩ := List.mem_map.mp hb'
        exact truncEntry_pos tol _ a' (hpos r hr a' ha')
    · -- axis = 1
      have ha1 : a = 1 := by omega
      subst ha1
      show truncate0Axis1 x false tol = some x
      unfold truncate0Axis1
      have hrowsome : ∀ r ∈ x, truncRow false tol r = some r := by
        intro r hr
        obtain ⟨hm0, hMpos⟩ := scope_pos_stats r (hrows r hr) (hpos r hr)
        unfold truncRow
        rw [scopeStats_of_ne_nil _ (hrows r hr), hm0]
        dsimp only
        rw [if_pos (mul_nonneg htol hMpos.le), hrowid r hr _]
      rw [mapM_option_eq_map _ id _ (fun r hr => hrowsome r hr), List.map_id]

/-- C4 witness: identity on a concrete positive matrix. -/
theorem truncate0_pos_identity_C4_w :
    truncate0 [[(1 : ℚ), 2], [3, 4]] Option.none false (1 / 10 ^ 13) =
      some [[(1 : ℚ), 2], [3, 4]] :=
  truncate0_pos_identity_C4 [[(1 : ℚ), 2], [3, 4]] (1 / 10 ^ 13) Option.none
    (by norm_num) (by simp) (by simp) (by norm_num) (by norm_num)

/-- C6: `expm1d` returns exactly `1` at `x = 0` by its first branch,
`+inf` at `x = +inf` by its explicit second branch, and `expm1(x)/x`, the
stable evaluation of `(e^x - 1)/x`, at every other real scalar. -/
theorem expm1d_C6 :
    expm1d 0 = 1 ∧ expm1d ⊤ = ⊤ ∧
    ∀ x : ℝ, x ≠ 0 →
      expm1d (x : EReal) = (((Real.exp x - 1) / x : ℝ) : EReal) := by
  refine ⟨?_, ?_, ?_⟩
  · unfold expm1d
    rw [if_pos rfl]
  · unfold expm1d
    rw [if_neg EReal.top_ne_zero, if_pos rfl]
  · intro x hx
    unfold expm1d
    rw [if_neg (fun h => hx (EReal.coe_eq_zero.mp h)),
      if_neg (EReal.coe_ne_top x), EReal.toReal_coe]

/-- C6 witness: the generic branch at `x = 1`. -/
theorem expm1d_C6_w :
    expm1d ((1 : ℝ) : EReal) = (((Real.exp 1 - 1) / 1 : ℝ) : EReal) :=
  expm1d_C6.2.2 1 one_ne_zero

/-- The loop of `transformed_expi_series` after `m` iterations: the
running coefficient is `(-1)^m m! x^m` and the accumulator is the
truncated alternating series. -/
theorem expi_series_loop (x : ℝ) (m : ℕ) :
    (List.range' 1 m).foldl
      (fun p (n : ℕ) =>
        let c := -p.1 * x * (n : ℝ)
        (c, p.2 + c)) (1, 1) =
      ((-1) ^ m * (Nat.factorial m : ℝ) * x ^ m,
        ∑ k ∈ Finset.range (m + 1),
          (-1) ^ k * (Nat.factorial k : ℝ) * x ^ k) := by
  induction m with
  | zero => simp [Nat.factorial]
  | succ m ih =>
    rw [List.range'_concat, List.foldl_append, ih]
    simp only [List.foldl_cons, List.foldl_nil]
    rw [Finset.sum_range_succ (n := m + 1)]
    refine Prod.ext ?_ ?_
    · show -((-1) ^ m * (Nat.factorial m : ℝ) * x ^ m) * x * ((1 + 1 * m : ℕ) : ℝ) = _
      push_cast [Nat.factorial_succ]
      ring
    · show _ + -((-1) ^ m * (Nat.factorial m : ℝ) * x ^ m) * x * ((1 + 1 * m : ℕ) : ℝ) = _
      push_cast [Nat.factorial_succ]
      ring

/-- The series branch sums the 10-term alternating series. -/
theorem transformed_expi_series_closed (x : ℝ) :
    transformed_expi_series x =
      ∑ k ∈ Finset.range 11, (-1) ^ k * (Nat.factorial k : ℝ) * x ^ k := by
  unfold transformed_expi_series
  rw [expi_series_loop]

/-- C7: `transformed_expi` maps each element through the magnitude split
at `1/45`: below the threshold it returns the 10-term truncated
alternating series `∑ (-1)^k k! x^k` (the loop `c₀ = 1`,
`c_k = -c_(k-1) x k`, accumulated), at or above it the closed form
`-expi(-1/x) e^(1/x) / x` through the exponential-integral special
function `F`. -/
theorem transformed_expi_C7 (F : ℝ → ℝ) (xs : List ℝ) (x : ℝ) :
    transformed_expi F xs = xs.map (transformed_expi_elem F) ∧
    (|x| < 1 / 45 →
      transformed_expi_elem F x =
        ∑ k ∈ Finset.range 11, (-1) ^ k * (Nat.factorial k : ℝ) * x ^ k) ∧
    (1 / 45 ≤ |x| →
      transformed_expi_elem F x = -F (-1 / x) * Real.exp (1 / x) / x) := by
  refine ⟨rfl, ?_, ?_⟩
  · intro h
    unfold transformed_expi_elem
    rw [if_pos h, transformed_expi_series_closed]
  · intro h
    unfold transformed_expi_elem transformed_expi_naive
    rw [if_neg (not_lt.mpr h)]

/-- C7 witness: the series branch at `x = 0`. -/
theorem transformed_expi_C7_w :
    transformed_expi_elem (fun _ => 0) 0 =
      ∑ k ∈ Finset.range 11,
        (-1) ^ k * (Nat.factorial k : ℝ) * (0 : ℝ) ^ k :=
  (transformed_expi_C7 (fun _ => 0) [] 0).2.1 (by norm_num)

/-- Folding `max` over a replicated list. -/
theorem foldl_max_replicate (n : ℕ) (a v : ℚ) :
    (List.replicate n v).foldl max a = if n = 0 then a else max a v := by
  induction n generalizing a with
  | zero => rfl
  | succ n ih =>
    rw [List.replicate_succ, List.foldl_cons, ih]
    by_cases h : n = 0
    · rw [if_pos h, if_neg (Nat.succ_ne_zero n)]
    · rw [if_neg h, if_neg (Nat.succ_ne_zero n), max_assoc, max_self]

/-- Folding `min` over a replicated list. -/
theorem foldl_min_replicate (n : ℕ) (a v : ℚ) :
    (List.replicate n v).foldl min a = if n = 0 then a else min a v := by
  induction n generalizing a with
  | zero => rfl
  | succ n ih =>
    rw [List.replicate_succ, List.foldl_cons, ih]
    by_cases h : n = 0
    · rw [if_pos h, if_neg (Nat.succ_ne_zero n)]
    · rw [if_neg h, if_neg (Nat.succ_ne_zero n), min_assoc, min_self]

/-- The maximum of the counterexample row is 1. -/
theorem c2Row_max? : c2Row.max? = some 1 := by
  unfold c2Row
  rw [List.max?_cons', List.foldl_cons, foldl_max_replicate,
    if_neg (by norm_num)]
  norm_num [max_def]

/-- The minimum of the counterexample row is `-1e-13`. -/
theorem c2Row_min? : c2Row.min? = some (-(1 / 10 ^ 13)) := by
  unfold c2Row
  rw [List.min?_cons', List.foldl_cons, foldl_min_replicate,
    if_neg (by norm_num)]
  norm_num [min_def]

/-- The pre-truncation sum of the counterexample row. -/
theorem c2Row_sum : c2Row.sum = 1 + 19 / 10 ^ 6 - 1 / 10 ^ 13 := by
  unfold c2Row
  rw [List.sum_cons, List.sum_cons, List.sum_replicate, nsmul_eq_mul]
  push_cast
  norm_num

/-- `truncate0` zeroes every entry of the counterexample row except the
leading 1. -/
theorem c2Row_trunc :
    truncate0 [c2Row] Option.none false (1 / 10 ^ 13) =
      some [1 :: 0 :: List.replicate (10 ^ 8) 0] := by
  show truncate0Global [c2Row] false (1 / 10 ^ 13) = _
  unfold truncate0Global
  have hflat : ([c2Row] : List (List ℚ)).flatten = c2Row := by simp
  rw [hflat, scopeStats_of_ne_nil c2Row
      (by unfold c2Row; exact List.cons_ne_nil _ _),
    c2Row_max?, c2Row_min?]
  dsimp only [Option.getD_some]
  have hM : max (1 : ℚ) floorMax = 1 := max_eq_left (by norm_num [floorMax])
  have hm : max (-(-(1 / 10 ^ 13) : ℚ)) 0 = 1 / 10 ^ 13 := by
    rw [neg_neg]
    exact max_eq_left (by norm_num)
  rw [hM, hm]
  rw [if_pos (by norm_num)]
  refine congrArg some ?_
  simp only [List.map_cons, List.map_nil]
  refine congrArg (fun r => [r]) ?_
  unfold c2Row
  rw [List.map_cons, List.map_cons, List.map_replicate]
  have e1 : truncEntry false (1 / 10 ^ 13) 1 (1 / 10 ^ 13) 1 = 1 := by
    unfold truncEntry
    norm_num
  have e2 : truncEntry false (1 / 10 ^ 13) 1 (1 / 10 ^ 13) (-(1 / 10 ^ 13)) = 0 := by
    unfold truncEntry
    norm_num
  have e3 : truncEntry false (1 / 10 ^ 13) 1 (1 / 10 ^ 13) (19 / 10 ^ 14) = 0 := by
    unfold truncEntry
    norm_num
  rw [e1, e2, e3]

/-- Evaluation of `check_probs_matrix` once the `truncate0` result is
known. -/
theorem check_probs_eval (x z : List (List ℚ))
    (hz : truncate0 x Option.none false (1 / 10 ^ 13) = some z) :
    check_probs_matrix x =
      if allcloseOne (z.map List.sum) = true
      then some (z.map fun r => r.map (fun e => e * (List.sum r)⁻¹))
      else none := by
  unfold check_probs_matrix
  rw [hz]

/-- `check_probs_matrix` accepts the counterexample row (its truncated
row sum is exactly 1). -/
theorem c2_check_eval :
    check_probs_matrix [c2Row] = some [1 :: 0 :: List.replicate (10 ^ 8) 0] := by
  rw [check_probs_eval [c2Row] [1 :: 0 :: List.replicate (10 ^ 8) 0]
    c2Row_trunc]
  have hsum1 : (1 :: 0 :: List.replicate (10 ^ 8) (0 : ℚ)).sum = 1 := by
    rw [List.sum_cons, List.sum_cons, List.sum_replicate, smul_zero]
    norm_num
  have hall : allcloseOne
      ([1 :: 0 :: List.replicate (10 ^ 8) (0 : ℚ)].map List.sum) = true := by
    simp only [List.map_cons, List.map_nil, hsum1]
    norm_num [allcloseOne]
  rw [if_pos hall]
  refine congrArg some ?_
  simp only [List.map_cons, List.map_nil, hsum1, inv_one, mul_one]
  rw [List.map_id']

/-- C2 counterexample: on the single-row matrix
`[1, -1e-13] ++ [1.9e-13] * 10^8` the pre-truncation row sum
`1 + 1.9e-5 - 1e-13` is NOT close to 1 under `np.allclose`, yet
`check_probs_matrix` succeeds, because the row-sum assertion in the code
runs only after `truncate0` has zeroed the `10^8` sub-threshold entries.
The claim that the assertion happens before `truncate0` is therefore
false. -/
theorem check_probs_C2_cex :
    allcloseOne (List.map List.sum [c2Row]) = false ∧
    (check_probs_matrix [c2Row]).isSome = true := by
  constructor
  · have hs' : ¬(|(1 + 19 / 10 ^ 6 - 1 / 10 ^ 13 : ℚ) - 1| ≤
        1 / 10 ^ 8 + 1 / 10 ^ 5) := by
      intro h
      rw [show (1 + 19 / 10 ^ 6 - 1 / 10 ^ 13 - 1 : ℚ) =
          19 / 10 ^ 6 - 1 / 10 ^ 13 from by ring,
        abs_of_nonneg (by norm_num)] at h
      norm_num at h
    simp only [List.map_cons, List.map_nil, c2Row_sum]
    simp only [allcloseOne, List.all_cons, List.all_nil, Bool.and_true]
    exact decide_eq_false hs'
  · rw [c2_check_eval]
    rfl

/-- C2 (amended): `check_probs_matrix(x)` first applies `truncate0` and
only then asserts that every row sum of the truncated array is close to 1
(`np.allclose` tolerances); when that assertion passes it row-normalizes
and every returned row sums to exactly 1; it raises on `[[0.9, 0.05]]`
(truncated row sum 0.95, outside tolerance). -/
theorem check_probs_C2 :
    (∀ x z, truncate0 x Option.none false (1 / 10 ^ 13) = some z →
      ((allcloseOne (z.map List.sum) = true →
          check_probs_matrix x =
            some (z.map fun r => r.map (fun e => e * (List.sum r)⁻¹))) ∧
        (allcloseOne (z.map List.sum) = false →
          check_probs_matrix x = none))) ∧
    (∀ x y, check_probs_matrix x = some y → ∀ r ∈ y, List.sum r = 1) ∧
    check_probs_matrix [[9 / 10, 1 / 20]] = none := by
  refine ⟨?_, ?_, ?_⟩
  · intro x z hz
    constructor
    · intro hall
      unfold check_probs_matrix
      rw [hz]
      dsimp only
      rw [if_pos hall]
    · intro hall
      unfold check_probs_matrix
      rw [hz]
      dsimp only
      rw [if_neg (fun h => by rw [hall] at h; exact Bool.noConfusion h)]
  · intro x y hy r hr
    unfold check_probs_matrix at hy
    cases ht : truncate0 x Option.none false (1 / 10 ^ 13) with
    | none =>
      rw [ht] at hy
      exact Option.noConfusion hy
    | some z =>
      rw [ht] at hy
      dsimp only at hy
      by_cases hall : allcloseOne (z.map List.sum) = true
      · rw [if_pos hall] at hy
        obtain rfl := Option.some.inj hy
        obtain ⟨row, hrow, rfl⟩ := List.mem_map.mp hr
        have hbound := List.all_eq_true.mp hall (List.sum row)
          (List.mem_map.mpr ⟨row, hrow, rfl⟩)
        rw [decide_eq_true_iff] at hbound
        have hne : List.sum row ≠ 0 := by
          intro h0
          rw [h0] at hbound
          norm_num at hbound
        rw [List.sum_map_mul_right, List.map_id']
        exact mul_inv_cancel₀ hne
      · rw [if_neg hall] at hy
        exact Option.noConfusion hy
  · have ht : truncate0 [[9 / 10, 1 / 20]] Option.none false (1 / 10 ^ 13) =
        some [[9 / 10, 1 / 20]] := by
      show truncate0Global [[9 / 10, 1 / 20]] false (1 / 10 ^ 13) =
        some [[9 / 10, 1 / 20]]
      unfold truncate0Global
      rw [scopeStats_of_ne_nil _ (by simp)]
      norm_num [List.max?_cons', List.min?_cons', max_def, floorMax, truncEntry]
    unfold check_probs_matrix
    rw [ht]
    dsimp only
    have hs : ([[9 / 10, 1 / 20]] : List (List ℚ)).map List.sum =
        [19 / 20] := by
      simp only [List.map_cons, List.map_nil, List.sum_cons, List.sum_nil]
      norm_num
    rw [hs]
    have hnall : ¬(allcloseOne [(19 : ℚ) / 20] = true) := by
      intro hall
      have hb := List.all_eq_true.mp hall ((19 : ℚ) / 20)
        (List.mem_cons_self _ _)
      rw [decide_eq_true_iff] at hb
      rw [show ((19 : ℚ) / 20 - 1) = -(1 / 20) from by norm_num, abs_neg,
        abs_of_nonneg (by norm_num)] at hb
      norm_num at hb
    rw [if_neg hnall]

/-- C2 witness: the normalized output rows of a concrete accepted input
sum to 1. -/
theorem check_probs_C2_w : ∀ r ∈ [[(1 : ℚ)]], List.sum r = 1 :=
  check_probs_C2.2.1 [[(1 : ℚ)]] [[(1 : ℚ)]] (by
    have ht : truncate0 [[(1 : ℚ)]] Option.none false (1 / 10 ^ 13) =
        some [[(1 : ℚ)]] := by
      show truncate0Global [[(1 : ℚ)]] false (1 / 10 ^ 13) = some [[(1 : ℚ)]]
      unfold truncate0Global
      rw [scopeStats_of_ne_nil _ (by simp)]
      norm_num [List.max?_cons', List.min?_cons', max_def, floorMax, truncEntry]
    unfold check_probs_matrix
    rw [ht]
    dsimp only
    rw [if_pos (by norm_num [allcloseOne])]
    simp)

end Momi
